import Mathlib

/-
Verification development for the eonc-rest dispatch engine
(src/lib/server.js).  The engine is shallowly embedded: URLs and mount
paths are lists of characters, the mutable request object becomes an
explicit state record, and the continuation-passing traversal of the
layer stack (`handle`/`next`/`call` in the source) becomes a
fuel-indexed interpreter that also records a trace of the dispatch
events (layer skipped / layer invoked).  Handlers are modelled by what
they can do through the interfaces the engine gives them: call the
continuation with an optional error, throw synchronously, or complete
the response and never call the continuation.  Nested dispatchers
(sub-apps registered with `use`) are modelled by their own layer stack
and are run by the same interpreter, exactly as `server.handle(req,
res, next)` re-enters `handle` in the source.
-/

namespace Eonc

/-- URLs, pathnames and mount paths are modelled as lists of characters
(JavaScript strings with index-based access). -/
abbrev Str := List Char

/-- Index of the first occurrence of `pat` as a contiguous substring,
JavaScript `String.prototype.indexOf` (returning `none` for -1). -/
def findSub (pat : Str) : Str → Option Nat
  | [] => none
  | c :: rest =>
    if pat.isPrefixOf (c :: rest) then some 0
    else (findSub pat rest).map (· + 1)

/-- JavaScript `url.indexOf(c, start)`: first occurrence of the
character `c` at an index ≥ `start`. -/
def idxOfCharFrom (s : Str) (c : Char) (start : Nat) : Option Nat :=
  (findSub [c] (s.drop start)).map (· + start)

/-- Translation of `getProtohost` (src/lib/server.js lines 299–313):
for an absolute-form request target the scheme+host prefix up to the
first slash of the path; `none` models JavaScript `undefined`.  When
`url.indexOf('/', 3 + fqdnIndex)` finds no slash the source computes
`url.substr(0, -1)`, the empty string, modelled as `some []`. -/
def getProtohost (url : Str) : Option Str :=
  if url.length = 0 ∨ url.head? = some '/' then none
  else
    let pathLength := (findSub ['?'] url).getD url.length
    match findSub [':', '/', '/'] (url.take pathLength) with
    | none => none
    | some fqdnIndex =>
      match idxOfCharFrom url '/' (3 + fqdnIndex) with
      | some j => some (url.take j)
      | none => some []

/-- The `protohost` closure variable of `handle` (line 143):
`getProtohost(req.url) || ''`. -/
def protohostOf (url : Str) : Str := (getProtohost url).getD []

/-- Models the external `parseurl` collaborator used at line 178: the
pathname component of the request url, i.e. everything up to the query
string or fragment, skipping the scheme+host prefix of an
absolute-form target. -/
def rawPathname (url : Str) : Str :=
  if url.head? = some '/' then url.takeWhile (fun c => c != '?' && c != '#')
  else
    match getProtohost url with
    | some ph =>
      if ph.isEmpty then []
      else (url.drop ph.length).takeWhile (fun c => c != '?' && c != '#')
    | none => url.takeWhile (fun c => c != '?' && c != '#')

/-- Line 178: `let path = parseUrl(req).pathname || '/'`. -/
def pathnameDef (url : Str) : Str :=
  let p := rawPathname url
  if p.isEmpty then ['/'] else p

/-- What a handler invocation does through the engine interface:
call the continuation with an optional error, throw a value
synchronously, or complete the response without calling the
continuation.  The error type `ε` stands for the truthy error values
of the source (`Boolean(err)` at line 253). -/
inductive HRes (ε : Type) where
  | next (e : Option ε)
  | thrown (e : ε)
  | stop

/-- A registered handler, after the wrapping performed by `use`
(lines 96–120): a plain function with its declared parameter count
`len` (`handle.length`), an `Endpoint` instance (invoked through its
`handle` method, line 265; an `Endpoint` is an object, so its `length`
property is undefined), or a wrapped sub-app carrying its own layer
stack (the wrapper `function (req, res, next)` at line 117 has
declared length 3).  A handler reacts to the error argument it is
given and to the current request url. -/
inductive Handler (ε : Type) where
  | fn (len : Nat) (act : Option ε → Str → HRes ε)
  | endpoint (act : Str → HRes ε)
  | sub (stack : List (Str × Handler ε))

/-- Line 251: `let arity = handle.length || (handle instanceof
Endpoint ? 1 : undefined)`.  A declared length of 0 is falsy, and a
plain function is not an `Endpoint`, so its arity is undefined
(`none`). -/
def arity {ε : Type} : Handler ε → Option Nat
  | .fn len _ => if len ≠ 0 then some len else none
  | .endpoint _ => some 1
  | .sub _ => some 3

/-- JavaScript `arity < 4` (line 262): false when arity is undefined. -/
def arLt4 : Option Nat → Bool
  | some a => decide (a < 4)
  | none => false

/-- The request state threaded through a traversal: the mutable
`req.url`, the `req.originalUrl` capture (line 155), and an opaque
`extra` component standing for all other request content, which the
engine itself never examines. -/
structure St (ε α : Type) where
  url : Str
  originalUrl : Option Str
  extra : α
  deriving DecidableEq, Repr

/-- Dispatch events recorded by the interpreter: `skip` when the
prefix/boundary test fails (lines 182–190), `arskip` when `call` falls
through because the declared arity does not fit the propagation mode
(lines 257–271 falling to line 278), and `invoke` when the handler is
actually entered, recording the layer index, its mount path, its
computed arity, the propagated error, the (trimmed) url and pathname
it observes, and the `originalUrl` capture. -/
inductive Ev (ε : Type) where
  | skip (idx : Nat) (route : Str) (path : Str) (err : Option ε)
  | arskip (idx : Nat) (route : Str) (path : Str) (err : Option ε)
  | invoke (idx : Nat) (route : Str) (ar : Option Nat) (err : Option ε)
      (url : Str) (path : Str) (orig : Option Str)
  deriving DecidableEq, Repr

/-- Outcome of a frame traversal: `exhausted` models line 173
`defer(done, err)` — the terminal continuation scheduled (the Boolean
records that the source wraps it in `setImmediate`-based `defer`,
lines 37–42, rather than calling it synchronously); `halted` models a
handler that completed the response and never called the continuation;
`fuelOut` is interpreter fuel exhaustion. -/
inductive FOut (ε α : Type) where
  | exhausted (deferred : Bool) (err : Option ε) (st : St ε α)
  | halted (st : St ε α)
  | fuelOut (st : St ε α)
  deriving DecidableEq, Repr

/-- Lines 158–166 at the top of `next`: remove a synthesized leading
slash, then re-attach a previously trimmed prefix:
`req.url = protohost + removed + req.url.substr(protohost.length)`. -/
def restoreUrl (ph removed : Str) (slashAdded : Bool) (url : Str) : Str :=
  let u1 := if slashAdded then url.drop 1 else url
  if removed ≠ [] then ph ++ removed ++ u1.drop ph.length else u1

/-- Lines 192–202: trim the matched mount path off the url, ensuring a
leading slash when there is no protohost.  Returns the new `removed`,
the new url and the new `slashAdded` flag. -/
def trimUrl (ph route url : Str) : Str × Str × Bool :=
  if route.length ≠ 0 ∧ route ≠ ['/'] then
    let u := ph ++ url.drop (ph.length + route.length)
    if ph = [] ∧ u.head? ≠ some '/' then (route, '/' :: u, true)
    else (route, u, false)
  else ([], url, false)

/-- Line 155: `req.originalUrl = req.originalUrl || req.url` (an
already-captured empty string is falsy and would be overwritten). -/
def captureOriginal (orig : Option Str) (url : Str) : Option Str :=
  match orig with
  | some u => if u = [] then some url else some u
  | none => some url

variable {ε α : Type}

/-- The traversal interpreter: one call of `nextF` is one entry of the
`next` closure of `handle` (lines 157–206) together with the `call`
dispatch (lines 250–279) for the examined layer.  Arguments mirror the
closure state of one `handle` frame: the layer stack, the frame's
`protohost`, the running index, and the `removed` / `slashAdded`
save-restore state.  A sub-app layer re-enters `handle` (line 118):
fresh protohost, fresh index, `originalUrl` capture, and the parent
continuation as `done`.  Fuel bounds the recursion depth; every
recursive call uses strictly smaller fuel. -/
def nextF : Nat → List (Str × Handler ε) → Str → Nat → Str → Bool →
    St ε α → Option ε → List (Ev ε) × FOut ε α
  | 0, _, _, _, _, _, st, _ => ([], FOut.fuelOut st)
  | Nat.succ fuel, stack, ph, idx, removed, sa, st, err =>
    -- lines 158–166: restore url state on (re)entry
    let st1 : St ε α := { st with url := restoreUrl ph removed sa st.url }
    -- line 169: `let layer = stack[index++]`
    match stack.get? idx with
    | none =>
      -- lines 172–175: all done — `defer(done, err)`
      ([], FOut.exhausted true err st1)
    | some layer =>
      let route := layer.1
      let path := pathnameDef st1.url
      -- line 182: skip if the lower-cased prefix differs
      if (path.map Char.toLower).take route.length ≠ route.map Char.toLower then
        let r := nextF fuel stack ph (idx + 1) [] false st1 err
        (Ev.skip idx route path err :: r.1, r.2)
      else
        -- lines 187–190: skip if the border is not "/", "." or the end
        let c := path.get? route.length
        if c ≠ none ∧ c ≠ some '/' ∧ c ≠ some '.' then
          let r := nextF fuel stack ph (idx + 1) [] false st1 err
          (Ev.skip idx route path err :: r.1, r.2)
        else
          -- lines 192–202: trim the matched prefix
          let t := trimUrl ph route st1.url
          let st2 : St ε α := { st1 with url := t.2.1 }
          -- lines 250–279: `call(layer.handle, route, err, req, res, next)`
          let ar := arity layer.2
          if err.isSome ∧ ar = some 4 then
            -- line 258: error-handling middleware (only a plain
            -- function can have arity 4)
            match layer.2 with
            | Handler.fn _ act =>
              let ev := Ev.invoke idx route ar err st2.url path st2.originalUrl
              (match act err st2.url with
               | HRes.next e2 =>
                 let r := nextF fuel stack ph (idx + 1) t.1 t.2.2 st2 e2
                 (ev :: r.1, r.2)
               | HRes.thrown e2 =>
                 -- lines 272–275: replace the error, continue
                 let r := nextF fuel stack ph (idx + 1) t.1 t.2.2 st2 (some e2)
                 (ev :: r.1, r.2)
               | HRes.stop => ([ev], FOut.halted st2))
            | _ =>
              let r := nextF fuel stack ph (idx + 1) t.1 t.2.2 st2 err
              (Ev.arskip idx route path err :: r.1, r.2)
          else if err.isSome = false ∧ arLt4 ar = true then
            match layer.2 with
            | Handler.fn _ act =>
              -- line 268: request-handling middleware
              let ev := Ev.invoke idx route ar err st2.url path st2.originalUrl
              (match act err st2.url with
               | HRes.next e2 =>
                 let r := nextF fuel stack ph (idx + 1) t.1 t.2.2 st2 e2
                 (ev :: r.1, r.2)
               | HRes.thrown e2 =>
                 let r := nextF fuel stack ph (idx + 1) t.1 t.2.2 st2 (some e2)
                 (ev :: r.1, r.2)
               | HRes.stop => ([ev], FOut.halted st2))
            | Handler.endpoint act =>
              -- line 265: `handle.handle(req, res, next)`
              let ev := Ev.invoke idx route ar err st2.url path st2.originalUrl
              (match act st2.url with
               | HRes.next e2 =>
                 let r := nextF fuel stack ph (idx + 1) t.1 t.2.2 st2 e2
                 (ev :: r.1, r.2)
               | HRes.thrown e2 =>
                 let r := nextF fuel stack ph (idx + 1) t.1 t.2.2 st2 (some e2)
                 (ev :: r.1, r.2)
               | HRes.stop => ([ev], FOut.halted st2))
            | Handler.sub sub =>
              -- line 118: `server.handle(req, res, next)` — a nested
              -- frame: lines 141–155 recomputed for the current url
              let ev := Ev.invoke idx route ar err st2.url path st2.originalUrl
              let ph2 := protohostOf st2.url
              let st3 : St ε α :=
                { st2 with originalUrl := captureOriginal st2.originalUrl st2.url }
              let rs := nextF fuel sub ph2 0 [] false st3 none
              (match rs.2 with
               | FOut.exhausted _ e2 st4 =>
                 -- nested `defer(done, err)` resumes the parent `next`
                 let r := nextF fuel stack ph (idx + 1) t.1 t.2.2 st4 e2
                 (ev :: (rs.1 ++ r.1), r.2)
               | FOut.halted st4 => (ev :: rs.1, FOut.halted st4)
               | FOut.fuelOut st4 => (ev :: rs.1, FOut.fuelOut st4))
          else
            -- line 278: arity does not fit the propagation mode —
            -- fall through, `next(error)` with the error unchanged
            let r := nextF fuel stack ph (idx + 1) t.1 t.2.2 st2 err
            (Ev.arskip idx route path err :: r.1, r.2)

/-- Entry of one `handle` frame (lines 141–155 and the initial
`next()` call at line 208). -/
def handleF (fuel : Nat) (stack : List (Str × Handler ε)) (st : St ε α) :
    List (Ev ε) × FOut ε α :=
  let ph := protohostOf st.url
  let st1 : St ε α := { st with originalUrl := captureOriginal st.originalUrl st.url }
  nextF fuel stack ph 0 [] false st1 none

/-- First argument of `use` (line 83): either a mount-path string or
anything else (a handler given as the first argument). -/
inductive UseArg (ε : Type) where
  | str (route : Str)
  | nonstr (h : Handler ε)

/-- Registration, `use` (lines 83–132) restricted to what it stores:
default the route to `'/'` when the first argument is not a string
(lines 91–94), strip a trailing slash (lines 122–125), and push the
layer (line 129). -/
def use (stack : List (Str × Handler ε)) (route : UseArg ε) (fn : Handler ε) :
    List (Str × Handler ε) :=
  let lhandle := match route with | .str _ => fn | .nonstr h => h
  let lpath : Str := match route with | .str r => r | .nonstr _ => ['/']
  let lpath := if lpath.getLast? = some '/' then lpath.dropLast else lpath
  stack ++ [(lpath, lhandle)]

/-- The composite route-match test of lines 182–190 as one Boolean:
the lower-cased pathname starts with the lower-cased mount path and
the character after the matched prefix is absent, a slash or a dot. -/
def routeHit (route path : Str) : Bool :=
  decide ((path.map Char.toLower).take route.length = route.map Char.toLower)
  && (match path.get? route.length with
      | none => true
      | some c => c == '/' || c == '.')

/-- Invariant of every recorded invocation: the handler's computed
arity fits the propagation mode (arity 4 with an error being
propagated, or arity below 4 with no error), and the prefix/boundary
match test passed for the pathname the dispatcher examined. -/
def EvOk : Ev ε → Prop
  | .invoke _ route ar err _ path _ =>
      ((ar = some 4 ∧ err.isSome = true) ∨ ∃ a, ar = some a ∧ a < 4 ∧ err = none)
      ∧ routeHit route path = true
  | _ => True

/-- A dispatch event made an exact (case-identical) prefix match: for
every matched layer (invoked or arity-skipped) the pathname literally
starts with the stored mount path. -/
def ExEv : Ev ε → Bool
  | .invoke _ route _ _ _ path _ => path.take route.length == route
  | .arskip _ route path _ => path.take route.length == route
  | .skip _ _ _ _ => true

/-- The `originalUrl` observed by an invoked handler. -/
def EvOrig (u : Str) : Ev ε → Prop
  | .invoke _ _ _ _ _ _ orig => orig = some u
  | _ => True

/-- The `originalUrl` left in the request state at the end of a
traversal. -/
def OutOrig (u : Str) : FOut ε α → Prop
  | .exhausted _ _ st => st.originalUrl = some u
  | .halted st => st.originalUrl = some u
  | .fuelOut st => st.originalUrl = some u

/-- Forget the opaque request content that the engine never reads. -/
def eraseSt (st : St ε α) : St ε Unit := ⟨st.url, st.originalUrl, ()⟩

/-- Forget the opaque request content in a traversal outcome. -/
def eraseOut : FOut ε α → FOut ε Unit
  | .exhausted d e st => .exhausted d e (eraseSt st)
  | .halted st => .halted (eraseSt st)
  | .fuelOut st => .fuelOut (eraseSt st)

/-- Concrete fixtures used to evaluate the theorems on closed runs. -/
def hPlain : Handler Nat := Handler.fn 3 (fun _ _ => HRes.next none)

/-- A 4-parameter (error-handling) fixture that clears the error. -/
def hErr : Handler Nat := Handler.fn 4 (fun _ _ => HRes.next none)

/-- A fixture that throws the value 7 synchronously. -/
def hRaise : Handler Nat := Handler.fn 3 (fun _ _ => HRes.thrown 7)

/-- A request state over concrete types, with nothing captured yet. -/
def st0 (u : Str) : St Nat Unit := ⟨u, none, ()⟩

/-- A plain-function fixture that declares zero parameters. -/
def hZero : Handler Nat := Handler.fn 0 (fun _ _ => HRes.next none)

/-- A behaviour fixture that always throws the value 5. -/
def actThrow : Option Nat → Str → HRes Nat := fun _ _ => HRes.thrown 5

/-- Restoring with nothing trimmed and no synthesized slash is the
identity on the url. -/
theorem restoreUrl_nil (ph : Str) (url : Str) : restoreUrl ph [] false url = url := by
  simp [restoreUrl]

/-- Characterization of `arLt4`: true exactly for a defined arity
below 4 (JavaScript `arity < 4` is false for undefined arity). -/
theorem arLt4_spec (o : Option Nat) (h : arLt4 o = true) : ∃ a, o = some a ∧ a < 4 := by
  cases o with
  | none => simp [arLt4] at h
  | some a => exact ⟨a, rfl, by simpa [arLt4] using h⟩

/-- The composite match test holds exactly when the lower-cased prefix
test and the boundary test of lines 182–190 both pass. -/
theorem routeHit_iff (route path : Str) :
    routeHit route path = true ↔
      ((path.map Char.toLower).take route.length = route.map Char.toLower ∧
        (path.get? route.length = none ∨ path.get? route.length = some '/' ∨
          path.get? route.length = some '.')) := by
  unfold routeHit
  cases hc : path.get? route.length with
  | none => simp only [Bool.and_eq_true, decide_eq_true_eq]; simp
  | some c => simp only [Bool.and_eq_true, decide_eq_true_eq, Bool.or_eq_true, beq_iff_eq]; simp

/-- A non-empty captured original target is never overwritten
(line 155: `req.originalUrl = req.originalUrl || req.url`). -/
theorem captureOriginal_keep (u url : Str) (h : u ≠ []) :
    captureOriginal (some u) url = some u := by
  simp [captureOriginal, h]

/-- An option whose `isSome` is false is `none`. -/
theorem eq_none_of_isSome_false {ε : Type} {o : Option ε} (h : o.isSome = false) :
    o = none := by
  cases o with
  | none => rfl
  | some a => simp at h

/-- Passing both source-shaped tests of lines 182–190 establishes the
composite match test. -/
theorem routeHit_of_tests (route path : Str)
    (h1 : ¬((path.map Char.toLower).take route.length ≠ route.map Char.toLower))
    (h2 : ¬(path.get? route.length ≠ none ∧ path.get? route.length ≠ some '/' ∧
        path.get? route.length ≠ some '.')) :
    routeHit route path = true := by
  rw [routeHit_iff]
  refine ⟨not_not.mp h1, ?_⟩
  by_cases hn : path.get? route.length = none
  · exact Or.inl hn
  · by_cases hs : path.get? route.length = some '/'
    · exact Or.inr (Or.inl hs)
    · by_cases hd : path.get? route.length = some '.'
      · exact Or.inr (Or.inr hd)
      · exact absurd ⟨hn, hs, hd⟩ h2

/-- Master trace invariant: every invocation a traversal records has an
arity fitting the propagation mode and a passing prefix/boundary match
test. -/
theorem evOk_of_mem :
    ∀ (fuel : Nat) (stack : List (Str × Handler ε)) (ph : Str) (idx : Nat)
      (removed : Str) (sa : Bool) (st : St ε α) (err : Option ε) (ev : Ev ε),
      ev ∈ (nextF fuel stack ph idx removed sa st err).1 → EvOk ev := by
  intro fuel
  induction fuel with
  | zero =>
    intro stack ph idx removed sa st err ev h
    simp [nextF] at h
  | succ fuel ih =>
    intro stack ph idx removed sa st err ev h
    simp only [nextF] at h
    split at h
    · simp at h
    · rename_i layer heq
      split at h
      · rcases List.mem_cons.mp h with rfl | hm
        · exact trivial
        · exact ih _ _ _ _ _ _ _ _ hm
      · split at h
        · rcases List.mem_cons.mp h with rfl | hm
          · exact trivial
          · exact ih _ _ _ _ _ _ _ _ hm
        · rename_i hpre hbnd
          split at h
          · rename_i hmode
            split at h
            · rename_i len act hfn
              split at h
              · rcases List.mem_cons.mp h with rfl | hm
                · exact ⟨Or.inl ⟨hmode.2, hmode.1⟩, routeHit_of_tests _ _ hpre hbnd⟩
                · exact ih _ _ _ _ _ _ _ _ hm
              · rcases List.mem_cons.mp h with rfl | hm
                · exact ⟨Or.inl ⟨hmode.2, hmode.1⟩, routeHit_of_tests _ _ hpre hbnd⟩
                · exact ih _ _ _ _ _ _ _ _ hm
              · rcases List.mem_cons.mp h with rfl | hm
                · exact ⟨Or.inl ⟨hmode.2, hmode.1⟩, routeHit_of_tests _ _ hpre hbnd⟩
                · simp at hm
            · rcases List.mem_cons.mp h with rfl | hm
              · exact trivial
              · exact ih _ _ _ _ _ _ _ _ hm
          · split at h
            · rename_i hnoerr hmode
              have hdis : (arity layer.2 = some 4 ∧ err.isSome = true) ∨
                  ∃ a, arity layer.2 = some a ∧ a < 4 ∧ err = none := by
                obtain ⟨a, ha, hlt⟩ := arLt4_spec _ hmode.2
                exact Or.inr ⟨a, ha, hlt, eq_none_of_isSome_false hmode.1⟩
              split at h
              · rename_i len act hfn
                split at h
                · rcases List.mem_cons.mp h with rfl | hm
                  · exact ⟨hdis, routeHit_of_tests _ _ hpre hbnd⟩
                  · exact ih _ _ _ _ _ _ _ _ hm
                · rcases List.mem_cons.mp h with rfl | hm
                  · exact ⟨hdis, routeHit_of_tests _ _ hpre hbnd⟩
                  · exact ih _ _ _ _ _ _ _ _ hm
                · rcases List.mem_cons.mp h with rfl | hm
                  · exact ⟨hdis, routeHit_of_tests _ _ hpre hbnd⟩
                  · simp at hm
              · rename_i act hep
                split at h
                · rcases List.mem_cons.mp h with rfl | hm
                  · exact ⟨hdis, routeHit_of_tests _ _ hpre hbnd⟩
                  · exact ih _ _ _ _ _ _ _ _ hm
                · rcases List.mem_cons.mp h with rfl | hm
                  · exact ⟨hdis, routeHit_of_tests _ _ hpre hbnd⟩
                  · exact ih _ _ _ _ _ _ _ _ hm
                · rcases List.mem_cons.mp h with rfl | hm
                  · exact ⟨hdis, routeHit_of_tests _ _ hpre hbnd⟩
                  · simp at hm
              · rename_i sub hsub
                split at h
                · rcases List.mem_cons.mp h with rfl | hm
                  · exact ⟨hdis, routeHit_of_tests _ _ hpre hbnd⟩
                  · rcases List.mem_append.mp hm with h1 | h2
                    · exact ih _ _ _ _ _ _ _ _ h1
                    · exact ih _ _ _ _ _ _ _ _ h2
                · rcases List.mem_cons.mp h with rfl | hm
                  · exact ⟨hdis, routeHit_of_tests _ _ hpre hbnd⟩
                  · exact ih _ _ _ _ _ _ _ _ hm
                · rcases List.mem_cons.mp h with rfl | hm
                  · exact ⟨hdis, routeHit_of_tests _ _ hpre hbnd⟩
                  · exact ih _ _ _ _ _ _ _ _ hm
            · rcases List.mem_cons.mp h with rfl | hm
              · exact trivial
              · exact ih _ _ _ _ _ _ _ _ hm

/-- C6 counterexample: registering mount path "/a//" stores mount path
"/a/", which ends in a trailing slash although it is not "/". -/
theorem c6_counterexample :
    ((use ([] : List (Str × Handler Nat)) (UseArg.str ("/a//".toList)) hPlain).map
        Prod.fst = ["/a/".toList]) ∧
    ("/a/".toList).getLast? = some '/' ∧ ("/a/".toList) ≠ ("/".toList) :=
  ⟨rfl, by decide, by decide⟩

/-- C6 (amended): registration strips exactly one trailing slash from
the given mount path when one is present — including from the root
path "/", which is stored as the empty path — so the stored mount path
ends in a slash only when the given path ended in a double slash. -/
theorem c6_trailing_slash (stack : List (Str × Handler ε)) (r : Str) (fn : Handler ε) :
    ((use stack (UseArg.str r) fn).map Prod.fst =
      stack.map Prod.fst ++ [if r.getLast? = some '/' then r.dropLast else r]) ∧
    ((if r.getLast? = some '/' then r.dropLast else r).getLast? = some '/' →
      r.getLast? = some '/' ∧ r.dropLast.getLast? = some '/') := by
  constructor
  · simp [use]
  · intro h
    by_cases hr : r.getLast? = some '/'
    · rw [if_pos hr] at h
      exact ⟨hr, h⟩
    · rw [if_neg hr] at h
      exact absurd h hr

/-- Witness for `c6_trailing_slash` at the mount path "/a//". -/
theorem c6_trailing_slash_witness :
    ("/a//".toList).getLast? = some '/' ∧ ("/a//".toList).dropLast.getLast? = some '/' :=
  (c6_trailing_slash ([] : List (Str × Handler Nat)) ("/a//".toList) hPlain).2 (by decide)

/-- C7 counterexample: a non-string first argument makes the stored
mount path the empty string, not "/". -/
theorem c7_counterexample :
    ((use ([] : List (Str × Handler Nat)) (UseArg.nonstr hPlain) hPlain).map
        Prod.fst = [([] : Str)]) ∧
    ([] : Str) ≠ "/".toList :=
  ⟨rfl, by decide⟩

/-- C7 (amended): when the first argument of `use` is not a string it
is treated as the handler and the mount path defaults to "/", which
the trailing-slash stripping then stores as the empty mount path. -/
theorem c7_default_route (stack : List (Str × Handler ε)) (h fn : Handler ε) :
    use stack (UseArg.nonstr h) fn = stack ++ [(([] : Str), h)] := rfl

/-- Every terminal handoff is deferred, and exhaustion hands the
terminal continuation exactly the error current at that moment: when
the index passes the end of the stack, the traversal yields the
deferred terminal invocation carrying the unchanged error, with the
restored url, and records no further event. -/
theorem c5_exhaustion_defers :
    (∀ (fuel : Nat) (stack : List (Str × Handler ε)) (ph : Str) (idx : Nat)
        (removed : Str) (sa : Bool) (st : St ε α) (err : Option ε)
        (d : Bool) (e : Option ε) (st' : St ε α),
        (nextF fuel stack ph idx removed sa st err).2 = FOut.exhausted d e st' →
        d = true) ∧
    (∀ (fuel : Nat) (stack : List (Str × Handler ε)) (ph : Str) (idx : Nat)
        (removed : Str) (sa : Bool) (st : St ε α) (err : Option ε),
        stack.get? idx = none →
        nextF (Nat.succ fuel) stack ph idx removed sa st err =
          ([], FOut.exhausted true err
            { st with url := restoreUrl ph removed sa st.url })) := by
  constructor
  · intro fuel
    induction fuel with
    | zero =>
      intro stack ph idx removed sa st err d e st' h
      simp [nextF] at h
    | succ fuel ih =>
      intro stack ph idx removed sa st err d e st' h
      simp only [nextF] at h
      repeat' split at h
      all_goals
        first
        | exact ((FOut.exhausted.inj h).1).symm
        | exact ih _ _ _ _ _ _ _ _ _ _ h
        | exact absurd h (by simp)
  · intro fuel stack ph idx removed sa st err hg
    rw [nextF]
    rw [hg]

/-- On a failed prefix/boundary match the layer is skipped: the
traversal records the skip and re-enters the continuation at the next
index with the same error value, the restored url and nothing trimmed
(lines 182–190). -/
theorem skip_eq
    (fuel : Nat) (stack : List (Str × Handler ε)) (ph : Str) (idx : Nat)
    (removed : Str) (sa : Bool) (st : St ε α) (err : Option ε)
    (route : Str) (handle : Handler ε)
    (hg : stack.get? idx = some (route, handle))
    (hmiss : routeHit route (pathnameDef (restoreUrl ph removed sa st.url)) = false) :
    nextF (Nat.succ fuel) stack ph idx removed sa st err =
      (Ev.skip idx route (pathnameDef (restoreUrl ph removed sa st.url)) err ::
        (nextF fuel stack ph (idx + 1) [] false
          { st with url := restoreUrl ph removed sa st.url } err).1,
       (nextF fuel stack ph (idx + 1) [] false
          { st with url := restoreUrl ph removed sa st.url } err).2) := by
  simp only [nextF, hg]
  split
  · rfl
  · split
    · rfl
    · rename_i hpre hbnd
      exact absurd (routeHit_of_tests _ _ hpre hbnd) (by simp [hmiss])

/-- When the route matches but the declared arity fits neither
propagation mode, `call` falls through to `next(error)` (line 278):
the traversal records the arity-skip and re-enters the continuation at
the next index with the error value unchanged (the trim of the matched
prefix still happened and is restored on that reentry). -/
theorem arskip_eq
    (fuel : Nat) (stack : List (Str × Handler ε)) (ph : Str) (idx : Nat)
    (removed : Str) (sa : Bool) (st : St ε α) (err : Option ε)
    (route : Str) (handle : Handler ε)
    (hg : stack.get? idx = some (route, handle))
    (hhit : routeHit route (pathnameDef (restoreUrl ph removed sa st.url)) = true)
    (hm1 : ¬(err.isSome = true ∧ arity handle = some 4))
    (hm2 : ¬(err.isSome = false ∧ arLt4 (arity handle) = true)) :
    nextF (Nat.succ fuel) stack ph idx removed sa st err =
      (Ev.arskip idx route (pathnameDef (restoreUrl ph removed sa st.url)) err ::
        (nextF fuel stack ph (idx + 1)
          (trimUrl ph route (restoreUrl ph removed sa st.url)).1
          (trimUrl ph route (restoreUrl ph removed sa st.url)).2.2
          { st with url := (trimUrl ph route (restoreUrl ph removed sa st.url)).2.1 }
          err).1,
       (nextF fuel stack ph (idx + 1)
          (trimUrl ph route (restoreUrl ph removed sa st.url)).1
          (trimUrl ph route (restoreUrl ph removed sa st.url)).2.2
          { st with url := (trimUrl ph route (restoreUrl ph removed sa st.url)).2.1 }
          err).2) := by
  have hh := (routeHit_iff _ _).mp hhit
  simp only [nextF, hg]
  split
  · rename_i hpre
    exact absurd hh.1 hpre
  · split
    · rename_i hbnd
      rcases hh.2 with h2 | h2 | h2
      · exact absurd h2 hbnd.1
      · exact absurd h2 hbnd.2.1
      · exact absurd h2 hbnd.2.2
    · rfl

/-- C1: for every traversal, a handler whose computed arity is 4 is
invoked only while an error is being propagated and its recorded error
argument is exactly the propagated one; a handler with a defined arity
below 4 is invoked only when no error is being propagated; and a
matched layer whose arity fits neither mode is skipped with the
continuation re-entered on the same error value unchanged. -/
theorem c1_arity_routing :
    (∀ (fuel : Nat) (stack : List (Str × Handler ε)) (ph : Str) (idx : Nat)
        (removed : Str) (sa : Bool) (st : St ε α) (err : Option ε)
        (i : Nat) (route : Str) (ar : Option Nat) (e : Option ε)
        (url path : Str) (orig : Option Str),
        Ev.invoke i route ar e url path orig ∈
          (nextF fuel stack ph idx removed sa st err).1 →
        (ar = some 4 → e.isSome = true) ∧ (∀ a, ar = some a → a < 4 → e = none)) ∧
    (∀ (fuel : Nat) (stack : List (Str × Handler ε)) (ph : Str) (idx : Nat)
        (removed : Str) (sa : Bool) (st : St ε α) (err : Option ε)
        (route : Str) (handle : Handler ε),
        stack.get? idx = some (route, handle) →
        routeHit route (pathnameDef (restoreUrl ph removed sa st.url)) = true →
        ¬(err.isSome = true ∧ arity handle = some 4) →
        ¬(err.isSome = false ∧ arLt4 (arity handle) = true) →
        nextF (Nat.succ fuel) stack ph idx removed sa st err =
          (Ev.arskip idx route (pathnameDef (restoreUrl ph removed sa st.url)) err ::
            (nextF fuel stack ph (idx + 1)
              (trimUrl ph route (restoreUrl ph removed sa st.url)).1
              (trimUrl ph route (restoreUrl ph removed sa st.url)).2.2
              { st with url := (trimUrl ph route (restoreUrl ph removed sa st.url)).2.1 }
              err).1,
           (nextF fuel stack ph (idx + 1)
              (trimUrl ph route (restoreUrl ph removed sa st.url)).1
              (trimUrl ph route (restoreUrl ph removed sa st.url)).2.2
              { st with url := (trimUrl ph route (restoreUrl ph removed sa st.url)).2.1 }
              err).2)) := by
  constructor
  · intro fuel stack ph idx removed sa st err i route ar e url path orig h
    have hok := evOk_of_mem fuel stack ph idx removed sa st err _ h
    simp only [EvOk] at hok
    obtain ⟨hdis, _⟩ := hok
    constructor
    · intro h4
      rcases hdis with ⟨_, he⟩ | ⟨a, ha, hlt, _⟩
      · exact he
      · have hae : a = 4 := Option.some.inj (ha.symm.trans h4)
        exact absurd (hae ▸ hlt) (lt_irrefl 4)
    · intro a ha hlt
      rcases hdis with ⟨h4, _⟩ | ⟨b, hb, _, hn⟩
      · have hae : a = 4 := Option.some.inj (ha.symm.trans h4)
        exact absurd (hae ▸ hlt) (lt_irrefl 4)
      · exact hn
  · intro fuel stack ph idx removed sa st err route handle hg hhit hm1 hm2
    exact arskip_eq fuel stack ph idx removed sa st err route handle hg hhit hm1 hm2

/-- Witness for `c1_arity_routing`: in the run where a normal handler
throws 7, the registered 4-parameter handler is invoked with that
error being propagated. -/
theorem c1_arity_routing_witness :
    (Ev.invoke 1 ([] : Str) (some 4) (some 7) ("/x".toList) ("/x".toList) none ∈
      (nextF 3 [(([] : Str), hRaise), (([] : Str), hErr)] [] 0 [] false
        (st0 ("/x".toList)) none).1) ∧
    (some 7 : Option Nat).isSome = true :=
  ⟨by decide,
    (c1_arity_routing.1 3 [(([] : Str), hRaise), (([] : Str), hErr)] [] 0 [] false
      (st0 ("/x".toList)) none 1 [] (some 4) (some 7) ("/x".toList) ("/x".toList)
      none (by decide)).1 rfl⟩

/-- C2: every invocation a traversal records satisfies the
prefix/boundary match on the pathname the dispatcher examined; the
mount path "/adm" matches pathnames "/adm", "/adm/x" and "/adm.json"
but not "/administration"; and on any mismatch the layer is skipped
with the error value carried forward unchanged. -/
theorem c2_prefix_boundary :
    (∀ (fuel : Nat) (stack : List (Str × Handler ε)) (ph : Str) (idx : Nat)
        (removed : Str) (sa : Bool) (st : St ε α) (err : Option ε)
        (i : Nat) (route : Str) (ar : Option Nat) (e : Option ε)
        (url path : Str) (orig : Option Str),
        Ev.invoke i route ar e url path orig ∈
          (nextF fuel stack ph idx removed sa st err).1 →
        (path.map Char.toLower).take route.length = route.map Char.toLower ∧
        (path.get? route.length = none ∨ path.get? route.length = some '/' ∨
          path.get? route.length = some '.')) ∧
    (routeHit ("/adm".toList) ("/adm".toList) = true ∧
      routeHit ("/adm".toList) ("/adm/x".toList) = true ∧
      routeHit ("/adm".toList) ("/adm.json".toList) = true ∧
      routeHit ("/adm".toList) ("/administration".toList) = false) ∧
    (∀ (fuel : Nat) (stack : List (Str × Handler ε)) (ph : Str) (idx : Nat)
        (removed : Str) (sa : Bool) (st : St ε α) (err : Option ε)
        (route : Str) (handle : Handler ε),
        stack.get? idx = some (route, handle) →
        routeHit route (pathnameDef (restoreUrl ph removed sa st.url)) = false →
        nextF (Nat.succ fuel) stack ph idx removed sa st err =
          (Ev.skip idx route (pathnameDef (restoreUrl ph removed sa st.url)) err ::
            (nextF fuel stack ph (idx + 1) [] false
              { st with url := restoreUrl ph removed sa st.url } err).1,
           (nextF fuel stack ph (idx + 1) [] false
              { st with url := restoreUrl ph removed sa st.url } err).2)) := by
  refine ⟨?_, by decide, ?_⟩
  · intro fuel stack ph idx removed sa st err i route ar e url path orig h
    have hok := evOk_of_mem fuel stack ph idx removed sa st err _ h
    simp only [EvOk] at hok
    exact (routeHit_iff _ _).mp hok.2
  · intro fuel stack ph idx removed sa st err route handle hg hmiss
    exact skip_eq fuel stack ph idx removed sa st err route handle hg hmiss

/-- Witness for `c2_prefix_boundary`: the invocation recorded for
mount path "/adm" on pathname "/adm.json" satisfies both tests, and
the mismatch on "/administration" produces the skip equation. -/
theorem c2_prefix_boundary_witness :
    (Ev.invoke 0 ("/adm".toList) (some 3) none ("/.json".toList) ("/adm.json".toList)
        none ∈
      (nextF 2 [(("/adm".toList), hPlain)] [] 0 [] false
        (st0 ("/adm.json".toList)) none).1) ∧
    ((("/adm.json".toList).map Char.toLower).take ("/adm".toList).length =
        ("/adm".toList).map Char.toLower ∧
      (("/adm.json".toList).get? ("/adm".toList).length = none ∨
        ("/adm.json".toList).get? ("/adm".toList).length = some '/' ∨
        ("/adm.json".toList).get? ("/adm".toList).length = some '.')) ∧
    ([(("/adm".toList), hPlain)].get? 0 = some (("/adm".toList), hPlain)) ∧
    nextF (Nat.succ 0) [(("/adm".toList), hPlain)] [] 0 [] false
        (st0 ("/administration".toList)) none =
      (Ev.skip 0 ("/adm".toList)
          (pathnameDef (restoreUrl [] [] false ("/administration".toList))) none ::
        (nextF 0 [(("/adm".toList), hPlain)] [] 1 [] false
          { st0 ("/administration".toList) with
              url := restoreUrl [] [] false ("/administration".toList) } none).1,
       (nextF 0 [(("/adm".toList), hPlain)] [] 1 [] false
          { st0 ("/administration".toList) with
              url := restoreUrl [] [] false ("/administration".toList) } none).2) :=
  ⟨by decide,
    c2_prefix_boundary.1 2 [(("/adm".toList), hPlain)] [] 0 [] false
      (st0 ("/adm.json".toList)) none 0 ("/adm".toList) (some 3) none
      ("/.json".toList) ("/adm.json".toList) none (by decide),
    rfl,
    c2_prefix_boundary.2.2 0 [(("/adm".toList), hPlain)] [] 0 [] false
      (st0 ("/administration".toList)) none ("/adm".toList) hPlain rfl (by decide)⟩

/-- C10: a registered plain function declaring zero parameters has
undefined computed arity, so no recorded invocation ever carries an
undefined arity, and a matched zero-parameter function is skipped in
both propagation modes with the error state unchanged. -/
theorem c10_zero_arity_skipped :
    (∀ act : Option ε → Str → HRes ε, arity (Handler.fn 0 act) = none) ∧
    (∀ (fuel : Nat) (stack : List (Str × Handler ε)) (ph : Str) (idx : Nat)
        (removed : Str) (sa : Bool) (st : St ε α) (err : Option ε)
        (i : Nat) (route : Str) (ar : Option Nat) (e : Option ε)
        (url path : Str) (orig : Option Str),
        Ev.invoke i route ar e url path orig ∈
          (nextF fuel stack ph idx removed sa st err).1 →
        ar ≠ none) ∧
    (∀ (fuel : Nat) (stack : List (Str × Handler ε)) (ph : Str) (idx : Nat)
        (removed : Str) (sa : Bool) (st : St ε α) (err : Option ε)
        (route : Str) (act : Option ε → Str → HRes ε),
        stack.get? idx = some (route, Handler.fn 0 act) →
        routeHit route (pathnameDef (restoreUrl ph removed sa st.url)) = true →
        nextF (Nat.succ fuel) stack ph idx removed sa st err =
          (Ev.arskip idx route (pathnameDef (restoreUrl ph removed sa st.url)) err ::
            (nextF fuel stack ph (idx + 1)
              (trimUrl ph route (restoreUrl ph removed sa st.url)).1
              (trimUrl ph route (restoreUrl ph removed sa st.url)).2.2
              { st with url :=
                  (trimUrl ph route (restoreUrl ph removed sa st.url)).2.1 }
              err).1,
           (nextF fuel stack ph (idx + 1)
              (trimUrl ph route (restoreUrl ph removed sa st.url)).1
              (trimUrl ph route (restoreUrl ph removed sa st.url)).2.2
              { st with url :=
                  (trimUrl ph route (restoreUrl ph removed sa st.url)).2.1 }
              err).2)) := by
  refine ⟨fun act => rfl, ?_, ?_⟩
  · intro fuel stack ph idx removed sa st err i route ar e url path orig h
    have hok := evOk_of_mem fuel stack ph idx removed sa st err _ h
    simp only [EvOk] at hok
    rcases hok.1 with ⟨h4, _⟩ | ⟨a, ha, _, _⟩
    · rw [h4]; exact Option.noConfusion
    · rw [ha]; exact Option.noConfusion
  · intro fuel stack ph idx removed sa st err route act hg hhit
    refine arskip_eq fuel stack ph idx removed sa st err route (Handler.fn 0 act)
      hg hhit ?_ ?_
    · rintro ⟨_, hx⟩
      simp [arity] at hx
    · rintro ⟨_, hx⟩
      simp [arity, arLt4] at hx

/-- Witness for `c10_zero_arity_skipped`: a matched zero-parameter
function layer is arity-skipped on a normal request. -/
theorem c10_zero_arity_skipped_witness :
    ([(([] : Str), hZero)].get? 0 = some (([] : Str), Handler.fn 0 (fun _ _ => HRes.next none))) ∧
    nextF (Nat.succ 0) [(([] : Str), hZero)] [] 0 [] false (st0 ("/x".toList)) none =
      (Ev.arskip 0 ([] : Str) (pathnameDef (restoreUrl [] [] false ("/x".toList))) none ::
        (nextF 0 [(([] : Str), hZero)] [] 1
          (trimUrl [] [] (restoreUrl [] [] false ("/x".toList))).1
          (trimUrl [] [] (restoreUrl [] [] false ("/x".toList))).2.2
          { st0 ("/x".toList) with
              url := (trimUrl [] [] (restoreUrl [] [] false ("/x".toList))).2.1 }
          none).1,
       (nextF 0 [(([] : Str), hZero)] [] 1
          (trimUrl [] [] (restoreUrl [] [] false ("/x".toList))).1
          (trimUrl [] [] (restoreUrl [] [] false ("/x".toList))).2.2
          { st0 ("/x".toList) with
              url := (trimUrl [] [] (restoreUrl [] [] false ("/x".toList))).2.1 }
          none).2) :=
  ⟨rfl,
    c10_zero_arity_skipped.2.2 0 [(([] : Str), hZero)] [] 0 [] false
      (st0 ("/x".toList)) none [] (fun _ _ => HRes.next none) rfl (by decide)⟩

/-- Erasure naturality: running a traversal on the request state with
its opaque content forgotten produces exactly the same trace and the
erased outcome of the original run — the engine never reads the opaque
request content. -/
theorem nextF_erase :
    ∀ (fuel : Nat) (stack : List (Str × Handler ε)) (ph : Str) (idx : Nat)
      (removed : Str) (sa : Bool) (url : Str) (orig : Option Str) (x : α)
      (err : Option ε),
      nextF fuel stack ph idx removed sa (⟨url, orig, ()⟩ : St ε Unit) err =
        ((nextF fuel stack ph idx removed sa (⟨url, orig, x⟩ : St ε α) err).1,
          eraseOut (nextF fuel stack ph idx removed sa (⟨url, orig, x⟩ : St ε α) err).2) := by
  intro fuel
  induction fuel with
  | zero =>
    intro stack ph idx removed sa url orig x err
    rfl
  | succ fuel ih =>
    intro stack ph idx removed sa url orig x err
    simp only [nextF]
    cases hg : stack.get? idx with
    | none => rfl
    | some layer =>
      obtain ⟨route, handle⟩ := layer
      dsimp only
      by_cases hp : (List.map Char.toLower (pathnameDef (restoreUrl ph removed sa url))).take
          route.length ≠ List.map Char.toLower route
      · rw [if_pos hp, if_pos hp, ih stack ph (idx + 1) [] false
          (restoreUrl ph removed sa url) orig x err]
      · rw [if_neg hp, if_neg hp]
        by_cases hb : (pathnameDef (restoreUrl ph removed sa url)).get? route.length ≠ none ∧
            (pathnameDef (restoreUrl ph removed sa url)).get? route.length ≠ some '/' ∧
            (pathnameDef (restoreUrl ph removed sa url)).get? route.length ≠ some '.'
        · rw [if_pos hb, if_pos hb, ih stack ph (idx + 1) [] false
            (restoreUrl ph removed sa url) orig x err]
        · rw [if_neg hb, if_neg hb]
          by_cases hm1 : err.isSome = true ∧ arity handle = some 4
          · rw [if_pos hm1, if_pos hm1]
            cases handle with
            | fn len act =>
              dsimp only
              cases hact : act err (trimUrl ph route (restoreUrl ph removed sa url)).2.1 with
              | next e2 =>
                dsimp only
                rw [ih stack ph (idx + 1) _ _ _ orig x e2]
              | thrown e2 =>
                dsimp only
                rw [ih stack ph (idx + 1) _ _ _ orig x (some e2)]
              | stop => rfl
            | endpoint act =>
              dsimp only
              rw [ih stack ph (idx + 1) _ _ _ orig x err]
            | sub sub =>
              dsimp only
              rw [ih stack ph (idx + 1) _ _ _ orig x err]
          · rw [if_neg hm1, if_neg hm1]
            by_cases hm2 : err.isSome = false ∧ arLt4 (arity handle) = true
            · rw [if_pos hm2, if_pos hm2]
              cases handle with
              | fn len act =>
                dsimp only
                cases hact : act err (trimUrl ph route (restoreUrl ph removed sa url)).2.1 with
                | next e2 =>
                  dsimp only
                  rw [ih stack ph (idx + 1) _ _ _ orig x e2]
                | thrown e2 =>
                  dsimp only
                  rw [ih stack ph (idx + 1) _ _ _ orig x (some e2)]
                | stop => rfl
              | endpoint act =>
                dsimp only
                cases hact : act (trimUrl ph route (restoreUrl ph removed sa url)).2.1 with
                | next e2 =>
                  dsimp only
                  rw [ih stack ph (idx + 1) _ _ _ orig x e2]
                | thrown e2 =>
                  dsimp only
                  rw [ih stack ph (idx + 1) _ _ _ orig x (some e2)]
                | stop => rfl
              | sub sub =>
                dsimp only
                rw [ih sub (protohostOf (trimUrl ph route (restoreUrl ph removed sa url)).2.1) 0
                  [] false (trimUrl ph route (restoreUrl ph removed sa url)).2.1
                  (captureOriginal orig (trimUrl ph route (restoreUrl ph removed sa url)).2.1)
                  x none]
                dsimp only
                cases hrs : (nextF fuel sub
                    (protohostOf (trimUrl ph route (restoreUrl ph removed sa url)).2.1) 0
                    [] false
                    (⟨(trimUrl ph route (restoreUrl ph removed sa url)).2.1,
                      captureOriginal orig (trimUrl ph route (restoreUrl ph removed sa url)).2.1,
                      x⟩ : St ε α) none).2 with
                | exhausted d2 e2 st4 =>
                  simp only [eraseOut, eraseSt]
                  rw [ih stack ph (idx + 1) _ _ st4.url st4.originalUrl st4.extra e2]
                  rfl
                | halted st4 => rfl
                | fuelOut st4 => rfl
            · rw [if_neg hm2, if_neg hm2]
              dsimp only
              rw [ih stack ph (idx + 1) _ _ _ orig x err]

/-- Once a non-empty original target is captured, a traversal never
changes it: every recorded invocation observes the same capture and
the final request state still carries it (nested dispatch re-runs the
capture of line 155 but never overwrites a non-empty one). -/
theorem orig_preserved :
    ∀ (fuel : Nat) (stack : List (Str × Handler ε)) (ph : Str) (idx : Nat)
      (removed : Str) (sa : Bool) (st : St ε α) (err : Option ε) (u : Str),
      u ≠ [] → st.originalUrl = some u →
      (∀ ev ∈ (nextF fuel stack ph idx removed sa st err).1, EvOrig u ev) ∧
      OutOrig u (nextF fuel stack ph idx removed sa st err).2 := by
  intro fuel
  induction fuel with
  | zero =>
    intro stack ph idx removed sa st err u hne hso
    exact ⟨by intro ev hm; simp [nextF] at hm, hso⟩
  | succ fuel ih =>
    intro stack ph idx removed sa st err u hne hso
    simp only [nextF]
    cases hg : stack.get? idx with
    | none => exact ⟨by intro ev hm; simp at hm, hso⟩
    | some layer =>
      obtain ⟨route, handle⟩ := layer
      dsimp only
      by_cases hp : (List.map Char.toLower (pathnameDef (restoreUrl ph removed sa st.url))).take
          route.length ≠ List.map Char.toLower route
      · rw [if_pos hp]
        have hrec := ih stack ph (idx + 1) [] false
          { st with url := restoreUrl ph removed sa st.url } err u hne hso
        refine ⟨?_, hrec.2⟩
        intro ev hm
        rcases List.mem_cons.mp hm with rfl | hm
        · exact trivial
        · exact hrec.1 ev hm
      · rw [if_neg hp]
        by_cases hb : (pathnameDef (restoreUrl ph removed sa st.url)).get? route.length ≠ none ∧
            (pathnameDef (restoreUrl ph removed sa st.url)).get? route.length ≠ some '/' ∧
            (pathnameDef (restoreUrl ph removed sa st.url)).get? route.length ≠ some '.'
        · rw [if_pos hb]
          have hrec := ih stack ph (idx + 1) [] false
            { st with url := restoreUrl ph removed sa st.url } err u hne hso
          refine ⟨?_, hrec.2⟩
          intro ev hm
          rcases List.mem_cons.mp hm with rfl | hm
          · exact trivial
          · exact hrec.1 ev hm
        · rw [if_neg hb]
          by_cases hm1 : err.isSome = true ∧ arity handle = some 4
          · rw [if_pos hm1]
            cases handle with
            | fn len act =>
              dsimp only
              cases hact : act err (trimUrl ph route (restoreUrl ph removed sa st.url)).2.1 with
              | next e2 =>
                dsimp only
                have hrec := ih stack ph (idx + 1)
                    (trimUrl ph route (restoreUrl ph removed sa st.url)).1
                    (trimUrl ph route (restoreUrl ph removed sa st.url)).2.2
                  { st with url := (trimUrl ph route (restoreUrl ph removed sa st.url)).2.1 }
                  e2 u hne hso
                refine ⟨?_, hrec.2⟩
                intro ev hm
                rcases List.mem_cons.mp hm with rfl | hm
                · exact hso
                · exact hrec.1 ev hm
              | thrown e2 =>
                dsimp only
                have hrec := ih stack ph (idx + 1)
                    (trimUrl ph route (restoreUrl ph removed sa st.url)).1
                    (trimUrl ph route (restoreUrl ph removed sa st.url)).2.2
                  { st with url := (trimUrl ph route (restoreUrl ph removed sa st.url)).2.1 }
                  (some e2) u hne hso
                refine ⟨?_, hrec.2⟩
                intro ev hm
                rcases List.mem_cons.mp hm with rfl | hm
                · exact hso
                · exact hrec.1 ev hm
              | stop =>
                refine ⟨?_, hso⟩
                intro ev hm
                rcases List.mem_cons.mp hm with rfl | hm
                · exact hso
                · simp at hm
            | endpoint act =>
              dsimp only
              have hrec := ih stack ph (idx + 1)
                    (trimUrl ph route (restoreUrl ph removed sa st.url)).1
                    (trimUrl ph route (restoreUrl ph removed sa st.url)).2.2
                { st with url := (trimUrl ph route (restoreUrl ph removed sa st.url)).2.1 }
                err u hne hso
              refine ⟨?_, hrec.2⟩
              intro ev hm
              rcases List.mem_cons.mp hm with rfl | hm
              · exact trivial
              · exact hrec.1 ev hm
            | sub sub =>
              dsimp only
              have hrec := ih stack ph (idx + 1)
                    (trimUrl ph route (restoreUrl ph removed sa st.url)).1
                    (trimUrl ph route (restoreUrl ph removed sa st.url)).2.2
                { st with url := (trimUrl ph route (restoreUrl ph removed sa st.url)).2.1 }
                err u hne hso
              refine ⟨?_, hrec.2⟩
              intro ev hm
              rcases List.mem_cons.mp hm with rfl | hm
              · exact trivial
              · exact hrec.1 ev hm
          · rw [if_neg hm1]
            by_cases hm2 : err.isSome = false ∧ arLt4 (arity handle) = true
            · rw [if_pos hm2]
              cases handle with
              | fn len act =>
                dsimp only
                cases hact : act err (trimUrl ph route (restoreUrl ph removed sa st.url)).2.1 with
                | next e2 =>
                  dsimp only
                  have hrec := ih stack ph (idx + 1)
                    (trimUrl ph route (restoreUrl ph removed sa st.url)).1
                    (trimUrl ph route (restoreUrl ph removed sa st.url)).2.2
                    { st with url := (trimUrl ph route (restoreUrl ph removed sa st.url)).2.1 }
                    e2 u hne hso
                  refine ⟨?_, hrec.2⟩
                  intro ev hm
                  rcases List.mem_cons.mp hm with rfl | hm
                  · exact hso
                  · exact hrec.1 ev hm
                | thrown e2 =>
                  dsimp only
                  have hrec := ih stack ph (idx + 1)
                    (trimUrl ph route (restoreUrl ph removed sa st.url)).1
                    (trimUrl ph route (restoreUrl ph removed sa st.url)).2.2
                    { st with url := (trimUrl ph route (restoreUrl ph removed sa st.url)).2.1 }
                    (some e2) u hne hso
                  refine ⟨?_, hrec.2⟩
                  intro ev hm
                  rcases List.mem_cons.mp hm with rfl | hm
                  · exact hso
                  · exact hrec.1 ev hm
                | stop =>
                  refine ⟨?_, hso⟩
                  intro ev hm
                  rcases List.mem_cons.mp hm with rfl | hm
                  · exact hso
                  · simp at hm
              | endpoint act =>
                dsimp only
                cases hact : act (trimUrl ph route (restoreUrl ph removed sa st.url)).2.1 with
                | next e2 =>
                  dsimp only
                  have hrec := ih stack ph (idx + 1)
                    (trimUrl ph route (restoreUrl ph removed sa st.url)).1
                    (trimUrl ph route (restoreUrl ph removed sa st.url)).2.2
                    { st with url := (trimUrl ph route (restoreUrl ph removed sa st.url)).2.1 }
                    e2 u hne hso
                  refine ⟨?_, hrec.2⟩
                  intro ev hm
                  rcases List.mem_cons.mp hm with rfl | hm
                  · exact hso
                  · exact hrec.1 ev hm
                | thrown e2 =>
                  dsimp only
                  have hrec := ih stack ph (idx + 1)
                    (trimUrl ph route (restoreUrl ph removed sa st.url)).1
                    (trimUrl ph route (restoreUrl ph removed sa st.url)).2.2
                    { st with url := (trimUrl ph route (restoreUrl ph removed sa st.url)).2.1 }
                    (some e2) u hne hso
                  refine ⟨?_, hrec.2⟩
                  intro ev hm
                  rcases List.mem_cons.mp hm with rfl | hm
                  · exact hso
                  · exact hrec.1 ev hm
                | stop =>
                  refine ⟨?_, hso⟩
                  intro ev hm
                  rcases List.mem_cons.mp hm with rfl | hm
                  · exact hso
                  · simp at hm
              | sub sub =>
                dsimp only
                rw [hso, captureOriginal_keep u _ hne]
                have hsub := ih sub
                  (protohostOf (trimUrl ph route (restoreUrl ph removed sa st.url)).2.1) 0
                  [] false
                  (⟨(trimUrl ph route (restoreUrl ph removed sa st.url)).2.1, some u,
                    st.extra⟩ : St ε α) none u hne rfl
                cases hrs : (nextF fuel sub
                    (protohostOf (trimUrl ph route (restoreUrl ph removed sa st.url)).2.1) 0
                    [] false
                    (⟨(trimUrl ph route (restoreUrl ph removed sa st.url)).2.1, some u,
                      st.extra⟩ : St ε α) none).2 with
                | exhausted d2 e2 st4 =>
                  have hst4 : st4.originalUrl = some u := by
                    have := hsub.2
                    rw [hrs] at this
                    exact this
                  have hrec := ih stack ph (idx + 1)
                    (trimUrl ph route (restoreUrl ph removed sa st.url)).1
                    (trimUrl ph route (restoreUrl ph removed sa st.url)).2.2
                    st4 e2 u hne hst4
                  refine ⟨?_, hrec.2⟩
                  intro ev hm
                  rcases List.mem_cons.mp hm with rfl | hm
                  · exact rfl
                  · rcases List.mem_append.mp hm with h1 | h2
                    · exact hsub.1 ev h1
                    · exact hrec.1 ev h2
                | halted st4 =>
                  have hst4 : st4.originalUrl = some u := by
                    have := hsub.2
                    rw [hrs] at this
                    exact this
                  refine ⟨?_, hst4⟩
                  intro ev hm
                  rcases List.mem_cons.mp hm with rfl | hm
                  · exact rfl
                  · exact hsub.1 ev hm
                | fuelOut st4 =>
                  have hst4 : st4.originalUrl = some u := by
                    have := hsub.2
                    rw [hrs] at this
                    exact this
                  refine ⟨?_, hst4⟩
                  intro ev hm
                  rcases List.mem_cons.mp hm with rfl | hm
                  · exact rfl
                  · exact hsub.1 ev hm
            · rw [if_neg hm2]
              dsimp only
              have hrec := ih stack ph (idx + 1)
                    (trimUrl ph route (restoreUrl ph removed sa st.url)).1
                    (trimUrl ph route (restoreUrl ph removed sa st.url)).2.2
                { st with url := (trimUrl ph route (restoreUrl ph removed sa st.url)).2.1 }
                err u hne hso
              refine ⟨?_, hrec.2⟩
              intro ev hm
              rcases List.mem_cons.mp hm with rfl | hm
              · exact trivial
              · exact hrec.1 ev hm

/-- C9: original-target capture is idempotent — capture happens only
when nothing (or a falsy empty capture) is recorded, and once a
non-empty original url is recorded, every nested dispatch leaves it
unchanged for the entire traversal: every invocation observes it and
the traversal outcome still carries it. -/
theorem c9_original_capture :
    (∀ (u url : Str), u ≠ [] → captureOriginal (some u) url = some u) ∧
    (∀ (url : Str), captureOriginal none url = some url) ∧
    (∀ (fuel : Nat) (stack : List (Str × Handler ε)) (ph : Str) (idx : Nat)
        (removed : Str) (sa : Bool) (st : St ε α) (err : Option ε) (u : Str),
        u ≠ [] → st.originalUrl = some u →
        (∀ ev ∈ (nextF fuel stack ph idx removed sa st err).1, EvOrig u ev) ∧
        OutOrig u (nextF fuel stack ph idx removed sa st err).2) := by
  refine ⟨captureOriginal_keep, fun url => rfl, orig_preserved⟩

/-- Witness for `c9_original_capture`: a traversal entered with the
already-captured original url "/o" leaves the capture unchanged. -/
theorem c9_original_capture_witness :
    (("/o".toList : Str) ≠ []) ∧
    ((⟨"/x".toList, some ("/o".toList), ()⟩ : St Nat Unit).originalUrl =
      some ("/o".toList)) ∧
    OutOrig ("/o".toList)
      (nextF 2 [(([] : Str), hPlain)] [] 0 [] false
        (⟨"/x".toList, some ("/o".toList), ()⟩ : St Nat Unit) none).2 :=
  ⟨by decide, rfl,
    (c9_original_capture.2.2 2 [(([] : Str), hPlain)] [] 0 [] false
      (⟨"/x".toList, some ("/o".toList), ()⟩ : St Nat Unit) none ("/o".toList)
      (by decide) rfl).2⟩

/-- C8: order determinism and request-content independence — the
sequence of dispatch events (which layers are examined, skipped and
invoked, in which order), as well as the resulting error and url, is
the same for any two requests with the same url and captured original
url, regardless of the opaque rest of the request content; layers are
examined in registration order by the single advancing index. -/
theorem c8_order_determinism
    (fuel : Nat) (stack : List (Str × Handler ε)) (ph : Str) (idx : Nat)
    (removed : Str) (sa : Bool) (url : Str) (orig : Option Str)
    (err : Option ε) (x1 x2 : α) :
    (nextF fuel stack ph idx removed sa (⟨url, orig, x1⟩ : St ε α) err).1 =
      (nextF fuel stack ph idx removed sa (⟨url, orig, x2⟩ : St ε α) err).1 ∧
    eraseOut (nextF fuel stack ph idx removed sa (⟨url, orig, x1⟩ : St ε α) err).2 =
      eraseOut (nextF fuel stack ph idx removed sa (⟨url, orig, x2⟩ : St ε α) err).2 := by
  have h1 := nextF_erase fuel stack ph idx removed sa url orig x1 err
  have h2 := nextF_erase fuel stack ph idx removed sa url orig x2 err
  have h := h1.symm.trans h2
  exact ⟨(Prod.mk.inj h).1, (Prod.mk.inj h).2⟩

/-- Taking at most the length of the take-while prefix commutes with
taking from the underlying list. -/
theorem take_takeWhile_eq (p : Char → Bool) :
    ∀ (U : Str) (n : Nat), n ≤ (U.takeWhile p).length → U.take n = (U.takeWhile p).take n := by
  intro U
  induction U with
  | nil => intro n h; rfl
  | cons c tl ih =>
    intro n h
    cases hc : p c with
    | true =>
      simp only [List.takeWhile_cons, hc, if_true] at h ⊢
      cases n with
      | zero => rfl
      | succ n =>
        simp only [List.take_succ_cons]
        rw [ih n (by simp only [List.length_cons] at h; omega)]
    | false =>
      simp only [List.takeWhile_cons, hc, if_false] at h ⊢
      simp at h
      subst h
      rfl

/-- For an url starting with a slash, the effective pathname is the
take-while prefix up to the query or fragment. -/
theorem pathnameDef_slash (U : Str) (h : U.head? = some '/') :
    pathnameDef U = U.takeWhile (fun c => c != '?' && c != '#') := by
  cases U with
  | nil => simp at h
  | cons c tl =>
    have hc : c = '/' := by simpa using h
    subst hc
    simp [pathnameDef, rawPathname, List.takeWhile]

/-- An exact match of the mount path on the pathname is an exact match
on the url itself (for an url starting with a slash). -/
theorem exact_on_url (route U : Str) (hU : U.head? = some '/')
    (hex : (pathnameDef U).take route.length = route) :
    U.take route.length = route := by
  rw [pathnameDef_slash U hU] at hex
  have hlen : route.length ≤ (U.takeWhile (fun c => c != '?' && c != '#')).length := by
    have hcl := congrArg List.length hex
    rw [List.length_take] at hcl
    omega
  rw [take_takeWhile_eq _ U route.length hlen]
  exact hex

/-- Round trip of trimming and restoring: when the url literally
starts with protohost followed by the mount path, restoring after the
trim rebuilds exactly the original url. -/
theorem restore_trim (ph route url : Str)
    (hph : url.take ph.length = ph)
    (hex : (url.drop ph.length).take route.length = route) :
    restoreUrl ph (trimUrl ph route url).1 (trimUrl ph route url).2.2
      (trimUrl ph route url).2.1 = url := by
  have hroute : route ++ url.drop (ph.length + route.length) = url.drop ph.length := by
    conv_rhs => rw [← List.take_append_drop route.length (url.drop ph.length), hex,
      List.drop_drop]
  have hfull : ph ++ route ++ url.drop (ph.length + route.length) = url := by
    rw [List.append_assoc, hroute]
    conv_rhs => rw [← List.take_append_drop ph.length url]
    rw [hph]
  unfold trimUrl
  by_cases hr : route.length ≠ 0 ∧ route ≠ ['/']
  · rw [if_pos hr]
    have hrne : route ≠ [] := fun hx => hr.1 (by simp [hx])
    dsimp only
    by_cases hs : ph = [] ∧ (ph ++ url.drop (ph.length + route.length)).head? ≠ some '/'
    · rw [if_pos hs]
      obtain ⟨hph0, _⟩ := hs
      subst hph0
      dsimp only
      unfold restoreUrl
      rw [if_pos hrne]
      simp only [List.drop_succ_cons, List.drop_zero, List.nil_append,
        List.length_nil, Nat.zero_add] at hfull ⊢
      exact hfull
    · rw [if_neg hs]
      unfold restoreUrl
      rw [if_pos hrne]
      dsimp only
      rw [if_neg Bool.false_ne_true]
      rw [List.drop_left]
      exact hfull
  · rw [if_neg hr]
    dsimp only
    exact restoreUrl_nil ph url

/-- Trimming an url that starts with a slash (with no protohost)
leaves an url that starts with a slash. -/
theorem trim_head (route U : Str) (hU : U.head? = some '/') :
    ((trimUrl [] route U).2.1).head? = some '/' := by
  unfold trimUrl
  by_cases hr : route.length ≠ 0 ∧ route ≠ ['/']
  · rw [if_pos hr]
    dsimp only
    by_cases hs : ([] : Str) = [] ∧
        (([] : Str) ++ U.drop (([] : Str).length + route.length)).head? ≠ some '/'
    · rw [if_pos hs]
      rfl
    · rw [if_neg hs]
      dsimp only
      by_contra hx
      exact hs ⟨rfl, hx⟩
  · rw [if_neg hr]
    exact hU

/-- An url starting with a slash has no protohost. -/
theorem protohostOf_slash (url : Str) (h : url.head? = some '/') :
    protohostOf url = [] := by
  unfold protohostOf getProtohost
  rw [if_pos (Or.inr h)]
  rfl

/-- Round-trip law for a whole frame: in a traversal of origin-form
urls in which every match is case-exact, whenever the frame exhausts,
the url in the final request state is exactly the (restored) url the
frame started from — whatever mix of skipped layers, plain handlers
and nested dispatchers (matching 0, 1 or N of their own layers) ran in
between. -/
theorem url_roundtrip :
    ∀ (fuel : Nat) (stack : List (Str × Handler ε)) (idx : Nat)
      (removed : Str) (sa : Bool) (st : St ε α) (err : Option ε)
      (d : Bool) (e : Option ε) (st2 : St ε α),
      (restoreUrl [] removed sa st.url).head? = some '/' →
      (∀ ev ∈ (nextF fuel stack [] idx removed sa st err).1, ExEv ev = true) →
      (nextF fuel stack [] idx removed sa st err).2 = FOut.exhausted d e st2 →
      st2.url = restoreUrl [] removed sa st.url := by
  intro fuel
  induction fuel with
  | zero =>
    intro stack idx removed sa st err d e st2 hhead hall hout
    exact FOut.noConfusion hout
  | succ fuel ih =>
    intro stack idx removed sa st err d e st2 hhead hall hout
    simp only [nextF] at hall hout
    cases hg : stack.get? idx with
    | none =>
      rw [hg] at hout
      dsimp only at hout
      have h3 := (FOut.exhausted.inj hout).2.2
      rw [← h3]
    | some layer =>
      obtain ⟨route, handle⟩ := layer
      rw [hg] at hall hout
      dsimp only at hall hout
      set U := restoreUrl [] removed sa st.url with hUdef
      set t := trimUrl [] route U with ht
      have hcont : ∀ (rm2 : Str) (sa2 : Bool) (stc : St ε α) (e2 : Option ε),
          restoreUrl [] rm2 sa2 stc.url = U →
          (∀ ev ∈ (nextF fuel stack [] (idx + 1) rm2 sa2 stc e2).1, ExEv ev = true) →
          (nextF fuel stack [] (idx + 1) rm2 sa2 stc e2).2 = FOut.exhausted d e st2 →
          st2.url = U := by
        intro rm2 sa2 stc e2 hr hall2 hout2
        have hres := ih stack (idx + 1) rm2 sa2 stc e2 d e st2
          (by rw [hr]; exact hhead) hall2 hout2
        rw [hr] at hres
        exact hres
      by_cases hp : (List.map Char.toLower (pathnameDef U)).take route.length ≠
          List.map Char.toLower route
      · rw [if_pos hp] at hall hout
        dsimp only at hall hout
        exact hcont [] false { st with url := U } err rfl
          (fun ev hm => hall ev (List.mem_cons_of_mem _ hm)) hout
      · rw [if_neg hp] at hall hout
        by_cases hb : (pathnameDef U).get? route.length ≠ none ∧
            (pathnameDef U).get? route.length ≠ some '/' ∧
            (pathnameDef U).get? route.length ≠ some '.'
        · rw [if_pos hb] at hall hout
          dsimp only at hall hout
          exact hcont [] false { st with url := U } err rfl
            (fun ev hm => hall ev (List.mem_cons_of_mem _ hm)) hout
        · rw [if_neg hb] at hall hout
          by_cases hm1 : err.isSome = true ∧ arity handle = some 4
          · rw [if_pos hm1] at hall hout
            cases handle with
            | fn len act =>
              dsimp only at hall hout
              cases hact : act err t.2.1 with
              | next e2 =>
                rw [hact] at hall hout
                dsimp only at hall hout
                have hx : (pathnameDef U).take route.length = route := by
                  simpa [ExEv] using hall _ (List.mem_cons_self _ _)
                have hrt : restoreUrl [] t.1 t.2.2 t.2.1 = U := by
                  rw [ht]
                  exact restore_trim [] route U rfl
                    (by simpa using exact_on_url route U hhead hx)
                exact hcont t.1 t.2.2 { st with url := t.2.1 } e2 hrt
                  (fun ev hm => hall ev (List.mem_cons_of_mem _ hm)) hout
              | thrown e2 =>
                rw [hact] at hall hout
                dsimp only at hall hout
                have hx : (pathnameDef U).take route.length = route := by
                  simpa [ExEv] using hall _ (List.mem_cons_self _ _)
                have hrt : restoreUrl [] t.1 t.2.2 t.2.1 = U := by
                  rw [ht]
                  exact restore_trim [] route U rfl
                    (by simpa using exact_on_url route U hhead hx)
                exact hcont t.1 t.2.2 { st with url := t.2.1 } (some e2) hrt
                  (fun ev hm => hall ev (List.mem_cons_of_mem _ hm)) hout
              | stop =>
                rw [hact] at hout
                exact FOut.noConfusion hout
            | endpoint act =>
              dsimp only at hall hout
              have hx : (pathnameDef U).take route.length = route := by
                simpa [ExEv] using hall _ (List.mem_cons_self _ _)
              have hrt : restoreUrl [] t.1 t.2.2 t.2.1 = U := by
                rw [ht]
                exact restore_trim [] route U rfl
                  (by simpa using exact_on_url route U hhead hx)
              exact hcont t.1 t.2.2 { st with url := t.2.1 } err hrt
                (fun ev hm => hall ev (List.mem_cons_of_mem _ hm)) hout
            | sub sub =>
              dsimp only at hall hout
              have hx : (pathnameDef U).take route.length = route := by
                simpa [ExEv] using hall _ (List.mem_cons_self _ _)
              have hrt : restoreUrl [] t.1 t.2.2 t.2.1 = U := by
                rw [ht]
                exact restore_trim [] route U rfl
                  (by simpa using exact_on_url route U hhead hx)
              exact hcont t.1 t.2.2 { st with url := t.2.1 } err hrt
                (fun ev hm => hall ev (List.mem_cons_of_mem _ hm)) hout
          · rw [if_neg hm1] at hall hout
            by_cases hm2 : err.isSome = false ∧ arLt4 (arity handle) = true
            · rw [if_pos hm2] at hall hout
              cases handle with
              | fn len act =>
                dsimp only at hall hout
                cases hact : act err t.2.1 with
                | next e2 =>
                  rw [hact] at hall hout
                  dsimp only at hall hout
                  have hx : (pathnameDef U).take route.length = route := by
                    simpa [ExEv] using hall _ (List.mem_cons_self _ _)
                  have hrt : restoreUrl [] t.1 t.2.2 t.2.1 = U := by
                    rw [ht]
                    exact restore_trim [] route U rfl
                      (by simpa using exact_on_url route U hhead hx)
                  exact hcont t.1 t.2.2 { st with url := t.2.1 } e2 hrt
                    (fun ev hm => hall ev (List.mem_cons_of_mem _ hm)) hout
                | thrown e2 =>
                  rw [hact] at hall hout
                  dsimp only at hall hout
                  have hx : (pathnameDef U).take route.length = route := by
                    simpa [ExEv] using hall _ (List.mem_cons_self _ _)
                  have hrt : restoreUrl [] t.1 t.2.2 t.2.1 = U := by
                    rw [ht]
                    exact restore_trim [] route U rfl
                      (by simpa using exact_on_url route U hhead hx)
                  exact hcont t.1 t.2.2 { st with url := t.2.1 } (some e2) hrt
                    (fun ev hm => hall ev (List.mem_cons_of_mem _ hm)) hout
                | stop =>
                  rw [hact] at hout
                  exact FOut.noConfusion hout
              | endpoint act =>
                dsimp only at hall hout
                cases hact : act t.2.1 with
                | next e2 =>
                  rw [hact] at hall hout
                  dsimp only at hall hout
                  have hx : (pathnameDef U).take route.length = route := by
                    simpa [ExEv] using hall _ (List.mem_cons_self _ _)
                  have hrt : restoreUrl [] t.1 t.2.2 t.2.1 = U := by
                    rw [ht]
                    exact restore_trim [] route U rfl
                      (by simpa using exact_on_url route U hhead hx)
                  exact hcont t.1 t.2.2 { st with url := t.2.1 } e2 hrt
                    (fun ev hm => hall ev (List.mem_cons_of_mem _ hm)) hout
                | thrown e2 =>
                  rw [hact] at hall hout
                  dsimp only at hall hout
                  have hx : (pathnameDef U).take route.length = route := by
                    simpa [ExEv] using hall _ (List.mem_cons_self _ _)
                  have hrt : restoreUrl [] t.1 t.2.2 t.2.1 = U := by
                    rw [ht]
                    exact restore_trim [] route U rfl
                      (by simpa using exact_on_url route U hhead hx)
                  exact hcont t.1 t.2.2 { st with url := t.2.1 } (some e2) hrt
                    (fun ev hm => hall ev (List.mem_cons_of_mem _ hm)) hout
                | stop =>
                  rw [hact] at hout
                  exact FOut.noConfusion hout
              | sub sub =>
                dsimp only at hall hout
                have hph2 : protohostOf t.2.1 = [] := by
                  refine protohostOf_slash _ ?_
                  rw [ht]
                  exact trim_head route U hhead
                rw [hph2] at hall hout
                cases hrs : (nextF fuel sub [] 0 [] false
                    (⟨t.2.1, captureOriginal st.originalUrl t.2.1, st.extra⟩ : St ε α)
                    none).2 with
                | exhausted d2 e2 st4 =>
                  rw [hrs] at hall hout
                  dsimp only at hall hout
                  have hx : (pathnameDef U).take route.length = route := by
                    simpa [ExEv] using hall _ (List.mem_cons_self _ _)
                  have hrt : restoreUrl [] t.1 t.2.2 t.2.1 = U := by
                    rw [ht]
                    exact restore_trim [] route U rfl
                      (by simpa using exact_on_url route U hhead hx)
                  have hst4 : st4.url = t.2.1 :=
                    ih sub 0 [] false
                      (⟨t.2.1, captureOriginal st.originalUrl t.2.1, st.extra⟩ : St ε α)
                      none d2 e2 st4
                      (by rw [ht]; exact trim_head route U hhead)
                      (fun ev hm => hall ev
                        (List.mem_cons_of_mem _ (List.mem_append_left _ hm)))
                      hrs
                  exact hcont t.1 t.2.2 st4 e2 (by rw [hst4]; exact hrt)
                    (fun ev hm => hall ev
                      (List.mem_cons_of_mem _ (List.mem_append_right _ hm)))
                    hout
                | halted st4 =>
                  rw [hrs] at hout
                  exact FOut.noConfusion hout
                | fuelOut st4 =>
                  rw [hrs] at hout
                  exact FOut.noConfusion hout
            · rw [if_neg hm2] at hall hout
              dsimp only at hall hout
              have hx : (pathnameDef U).take route.length = route := by
                simpa [ExEv] using hall _ (List.mem_cons_self _ _)
              have hrt : restoreUrl [] t.1 t.2.2 t.2.1 = U := by
                rw [ht]
                exact restore_trim [] route U rfl
                  (by simpa using exact_on_url route U hhead hx)
              exact hcont t.1 t.2.2 { st with url := t.2.1 } err hrt
                (fun ev hm => hall ev (List.mem_cons_of_mem _ hm)) hout

/-- C3 (amended): the engine restores the url on reentry to protohost
plus trimmed prefix plus remainder, and this round-trips to exactly
the pre-trim url whenever the matched prefix equals the mount path
literally; consequently, for an origin-form request all of whose
matches are case-exact, a traversal that exhausts (through any mix of
skipped layers, handlers and nested dispatchers matching 0, 1 or N of
their own layers) leaves the url exactly as it found it. -/
theorem c3_path_restore :
    (∀ (ph route url : Str),
        url.take ph.length = ph →
        (url.drop ph.length).take route.length = route →
        restoreUrl ph (trimUrl ph route url).1 (trimUrl ph route url).2.2
          (trimUrl ph route url).2.1 = url) ∧
    (∀ (fuel : Nat) (stack : List (Str × Handler ε)) (st : St ε α)
        (d : Bool) (e : Option ε) (st2 : St ε α),
        st.url.head? = some '/' →
        (∀ ev ∈ (handleF fuel stack st).1, ExEv ev = true) →
        (handleF fuel stack st).2 = FOut.exhausted d e st2 →
        st2.url = st.url) := by
  refine ⟨restore_trim, ?_⟩
  intro fuel stack st d e st2 hhead hall hout
  simp only [handleF] at hall hout
  rw [protohostOf_slash st.url hhead] at hall hout
  have hres := url_roundtrip fuel stack 0 [] false
    { st with originalUrl := captureOriginal st.originalUrl st.url } none d e st2
    hhead hall hout
  exact hres

/-- Witness for `c3_path_restore`: mounting a nested dispatcher at
"/adm" and requesting "/adm/x" (a case-exact match) restores the url
exactly. -/
theorem c3_path_restore_witness :
    ((handleF 4 [(("/adm".toList),
        Handler.sub ([] : List (Str × Handler Nat)))]
        (st0 ("/adm/x".toList))).1.all ExEv = true) ∧
    ((handleF 4 [(("/adm".toList),
        Handler.sub ([] : List (Str × Handler Nat)))]
        (st0 ("/adm/x".toList))).2 =
      FOut.exhausted true none
        (⟨"/adm/x".toList, some ("/adm/x".toList), ()⟩ : St Nat Unit)) ∧
    (st0 ("/adm/x".toList)).url.head? = some '/' ∧
    (⟨"/adm/x".toList, some ("/adm/x".toList), ()⟩ : St Nat Unit).url =
      (st0 ("/adm/x".toList)).url :=
  ⟨by decide, by decide, rfl,
    c3_path_restore.2 4
      [(("/adm".toList), Handler.sub ([] : List (Str × Handler Nat)))]
      (st0 ("/adm/x".toList)) true none
      (⟨"/adm/x".toList, some ("/adm/x".toList), ()⟩ : St Nat Unit)
      rfl (by decide) (by decide)⟩

/-- C3 counterexample: with mount path "/adm" and request url
"/ADM/x", the case-insensitive match trims four characters but the
restore re-attaches the stored mount path spelling, so the next parent
layer observes pathname "/adm/x", not the "/ADM/x" it would have
observed had no trimming occurred. -/
theorem c3_counterexample :
    (handleF 6 [(("/adm".toList), Handler.sub ([] : List (Str × Handler Nat))),
        (("/zz".toList), hPlain)] (st0 ("/ADM/x".toList))).1 =
      [Ev.invoke 0 ("/adm".toList) (some 3) none ("/x".toList) ("/ADM/x".toList)
          (some ("/ADM/x".toList)),
        Ev.skip 1 ("/zz".toList) ("/adm/x".toList) none] ∧
    pathnameDef ("/ADM/x".toList) = "/ADM/x".toList ∧
    ("/adm/x".toList) ≠ ("/ADM/x".toList) :=
  ⟨by decide, by decide, by decide⟩

/-- C4: synchronous fault conversion — for a matched plain-function
layer invoked in the fitting propagation mode, whether the handler
throws a value `e` or instead calls the continuation with `some e`,
the remainder of the traversal is literally the same: the invocation
is recorded and the continuation is re-entered, at the next index and
with the trim state of this layer, carrying `some e` as the error.  In
the error-handling mode (arity 4, propagated error) this replaces the
propagated error. -/
theorem c4_sync_throw_conversion
    (fuel : Nat) (stack : List (Str × Handler ε)) (ph : Str) (idx : Nat)
    (removed : Str) (sa : Bool) (st : St ε α) (err : Option ε)
    (route : Str) (len : Nat) (act : Option ε → Str → HRes ε) (e : ε)
    (hg : stack.get? idx = some (route, Handler.fn len act))
    (hhit : routeHit route (pathnameDef (restoreUrl ph removed sa st.url)) = true)
    (hmode : (err.isSome = true ∧ arity (Handler.fn len act) = some 4) ∨
      (err.isSome = false ∧ arLt4 (arity (Handler.fn len act)) = true))
    (hact : act err (trimUrl ph route (restoreUrl ph removed sa st.url)).2.1 =
        HRes.thrown e ∨
      act err (trimUrl ph route (restoreUrl ph removed sa st.url)).2.1 =
        HRes.next (some e)) :
    nextF (Nat.succ fuel) stack ph idx removed sa st err =
      (Ev.invoke idx route (arity (Handler.fn len act)) err
          (trimUrl ph route (restoreUrl ph removed sa st.url)).2.1
          (pathnameDef (restoreUrl ph removed sa st.url)) st.originalUrl ::
        (nextF fuel stack ph (idx + 1)
          (trimUrl ph route (restoreUrl ph removed sa st.url)).1
          (trimUrl ph route (restoreUrl ph removed sa st.url)).2.2
          { st with url := (trimUrl ph route (restoreUrl ph removed sa st.url)).2.1 }
          (some e)).1,
       (nextF fuel stack ph (idx + 1)
          (trimUrl ph route (restoreUrl ph removed sa st.url)).1
          (trimUrl ph route (restoreUrl ph removed sa st.url)).2.2
          { st with url := (trimUrl ph route (restoreUrl ph removed sa st.url)).2.1 }
          (some e)).2) := by
  have hh := (routeHit_iff _ _).mp hhit
  simp only [nextF, hg]
  split
  · rename_i hpre
    exact absurd hh.1 hpre
  · split
    · rename_i hbnd
      rcases hh.2 with h2 | h2 | h2
      · exact absurd h2 hbnd.1
      · exact absurd h2 hbnd.2.1
      · exact absurd h2 hbnd.2.2
    · rcases hmode with hmode | hmode
      · rw [if_pos hmode]
        rcases hact with hact | hact
        · rw [hact]
        · rw [hact]
      · rw [if_neg ?hneg, if_pos hmode]
        case hneg =>
          rintro ⟨hx, _⟩
          rw [hmode.1] at hx
          exact Bool.noConfusion hx
        rcases hact with hact | hact
        · rw [hact]
        · rw [hact]

/-- Witness for `c4_sync_throw_conversion`: on a normal request, a
handler that throws 5 and a handler that calls the continuation with
the error 5 produce identical traversals. -/
theorem c4_sync_throw_conversion_witness :
    ([(([] : Str), Handler.fn 3 actThrow)].get? 0 =
      some (([] : Str), Handler.fn 3 actThrow)) ∧
    nextF (Nat.succ 1) [(([] : Str), Handler.fn 3 actThrow)] [] 0 [] false
        (st0 ("/x".toList)) none =
      (Ev.invoke 0 ([] : Str) (arity (Handler.fn 3 actThrow)) none
          (trimUrl [] [] (restoreUrl [] [] false ("/x".toList))).2.1
          (pathnameDef (restoreUrl [] [] false ("/x".toList))) none ::
        (nextF 1 [(([] : Str), Handler.fn 3 actThrow)] [] 1
          (trimUrl [] [] (restoreUrl [] [] false ("/x".toList))).1
          (trimUrl [] [] (restoreUrl [] [] false ("/x".toList))).2.2
          { st0 ("/x".toList) with
              url := (trimUrl [] [] (restoreUrl [] [] false ("/x".toList))).2.1 }
          (some 5)).1,
       (nextF 1 [(([] : Str), Handler.fn 3 actThrow)] [] 1
          (trimUrl [] [] (restoreUrl [] [] false ("/x".toList))).1
          (trimUrl [] [] (restoreUrl [] [] false ("/x".toList))).2.2
          { st0 ("/x".toList) with
              url := (trimUrl [] [] (restoreUrl [] [] false ("/x".toList))).2.1 }
          (some 5)).2) ∧
    (nextF 4 [(([] : Str), Handler.fn 3 actThrow)] [] 0 [] false
        (st0 ("/x".toList)) none).2 =
      (nextF 4 [(([] : Str), Handler.fn 3 (fun _ _ => HRes.next (some 5)))] [] 0 [] false
        (st0 ("/x".toList)) none).2 :=
  ⟨rfl,
    c4_sync_throw_conversion 1 [(([] : Str), Handler.fn 3 actThrow)] [] 0 [] false
      (st0 ("/x".toList)) none [] 3 actThrow 5 rfl (by decide)
      (Or.inr ⟨rfl, by decide⟩) (Or.inl rfl),
    by decide⟩

/-- Witness for `c5_exhaustion_defers` on an empty registry. -/
theorem c5_exhaustion_defers_witness :
    (([] : List (Str × Handler Nat)).get? 0 = none) ∧
    nextF (Nat.succ 0) ([] : List (Str × Handler Nat)) [] 0 [] false
        (st0 ("/x".toList)) none =
      ([], FOut.exhausted true none
        { st0 ("/x".toList) with url := restoreUrl [] [] false ("/x".toList) }) :=
  ⟨rfl, c5_exhaustion_defers.2 0 [] [] 0 [] false (st0 ("/x".toList)) none rfl⟩

end Eonc
